import Mathlib

/-!
Verification of the research-agent pipeline (`src/research_agent_1.py`)
against its natural-language specification.

The Python source is shallowly embedded: pure string/list manipulation
becomes Lean functions on `String` / `List`, the mutable fields of each
class become explicit state that is threaded through the functions, the
remote model / search / browser backends become function parameters, and
code that can raise becomes `Except` / `Option` valued.
-/

namespace ResearchAgentModel

/-- A role-tagged chat message, Python dict `{"role": ..., "content": ...}`. -/
structure Msg where
  role : String
  content : String
deriving DecidableEq, Repr

/-- Python slicing `s[:n]` on a string (character based). -/
def pySlice (n : Nat) (s : String) : String :=
  String.mk (s.toList.take n)

/-- Python `needle in hay` substring test. -/
def pyContains (needle hay : String) : Bool :=
  decide (needle.toList <:+: hay.toList)

/-- Python `str.lower()` (character by character). -/
def pyLower (s : String) : String :=
  String.mk (s.toList.map Char.toLower)

/-- Python `str.strip()`: drop leading and trailing whitespace. -/
def pyStrip (s : String) : String :=
  String.mk ((s.toList.dropWhile Char.isWhitespace).reverse.dropWhile
    Char.isWhitespace).reverse

/-- Split a character list at every occurrence of the separator, keeping
empty pieces (Python `str.split(sep)` with an explicit separator). -/
def splitChars (sep : Char) (acc : List Char) : List Char → List (List Char)
  | [] => [acc.reverse]
  | c :: cs =>
      if c = sep then acc.reverse :: splitChars sep [] cs
      else splitChars sep (c :: acc) cs

/-- Python `str.split(sep)` for a one-character separator. -/
def pySplit (sep : Char) (s : String) : List String :=
  (splitChars sep [] s.toList).map String.mk

/-! ## LLMClient: conversation context (`add_to_context`, `set_system_message`,
`clear_context`, `chat`), lines 36-114 of the source. -/

/-- Python slice `l[-k:]`: the last `k` elements, the whole list when `k = 0`
(Python `l[-0:]` is `l[0:]`). -/
def lastSlice (k : Nat) (l : List Msg) : List Msg :=
  if k = 0 then l else l.drop (l.length - k)

/-- `LLMClient.add_to_context`: append the message, then keep only the most
recent `maxLen` messages when the bound is exceeded. -/
def add_to_context (maxLen : Nat) (hist : List Msg) (role content : String) : List Msg :=
  let h := hist ++ [⟨role, content⟩]
  if maxLen < h.length then lastSlice maxLen h else h

/-- `LLMClient.set_system_message`: drop any existing system message and
put the new one first. -/
def set_system_message (hist : List Msg) (c : String) : List Msg :=
  ⟨"system", c⟩ :: hist.filter (fun m => m.role != "system")

/-- `LLMClient.clear_context`. -/
def clear_context (_hist : List Msg) : List Msg := []

/-- The value of `max_context_length` set in `LLMClient.__init__`. -/
def max_context_length : Nat := 30

/-- The outbound message list `chat` builds: history plus the user prompt when
`use_context` is true and the history is non-empty, the prompt alone otherwise. -/
def chatMessages (hist : List Msg) (prompt : String) (useContext : Bool) : List Msg :=
  if useContext && !hist.isEmpty then hist ++ [⟨"user", prompt⟩] else [⟨"user", prompt⟩]

/-- `LLMClient.chat`: build the outbound messages, call the backend, strip the
response, and (only on success, when `addToHistory`) record the user and
assistant turns.  Returns (result, new history, outbound messages); a backend
error propagates (`.error`) and the history is returned as it was. -/
def chat (maxLen : Nat) (backend : List Msg → Except String String) (hist : List Msg)
    (prompt : String) (useContext addToHistory : Bool) :
    Except String String × List Msg × List Msg :=
  let messages := chatMessages hist prompt useContext
  match backend messages with
  | .error e => (.error e, hist, messages)
  | .ok raw =>
      let resp := pyStrip raw
      let hist2 :=
        if addToHistory then
          add_to_context maxLen (add_to_context maxLen hist "user" prompt) "assistant" resp
        else hist
      (.ok resp, hist2, messages)

/-! ## WebScraper (`scrape_website`), lines 116-148 of the source. -/

/-- The document dict `{"content": ..., "title": ...}` returned by
`scrape_website`. -/
structure FetchedDoc where
  content : String
  title : String
deriving DecidableEq, Repr

/-- The mutable fields of a `WebScraper` instance. -/
structure ScraperState where
  url : String
  title : String
  content : String
deriving DecidableEq, Repr

/-- A fresh `WebScraper()`: `url = ""`, `title = ''`, `content = ''`. -/
def freshScraper : ScraperState := ⟨"", "", ""⟩

/-- What the browser does for one navigation: either the page loads (with a
title and, when a `body` element exists, its extracted text), or some
exception with the given class name is raised. -/
inductive PageOutcome where
  | ok (title : String) (body : Option String)
  | err (excName : String)
deriving DecidableEq, Repr

/-- `WebScraper.scrape_website`: on success store the title and the body text
(empty when there is no body element); on an exception store the error title
— the except branch assigns `self.webContent`, not `self.content`, so
`content` keeps its value from the previous call.  Always returns the dict
built from the instance fields. -/
def scrape_website (st : ScraperState) (u : String) (out : PageOutcome) :
    ScraperState × FetchedDoc :=
  let st1 : ScraperState := { st with url := u }
  match out with
  | .ok t b =>
      let st2 : ScraperState := { st1 with title := t, content := b.getD "" }
      (st2, ⟨st2.content, st2.title⟩)
  | .err e =>
      let st2 : ScraperState := { st1 with title := "Scraping Error: " ++ e }
      (st2, ⟨st2.content, st2.title⟩)

/-! ## SearchQueryGenerator (`extract`), lines 179-214 of the source. -/

/-- The expansion prompt built from the question (wording condensed: the
claims depend only on the prompt being one string built from the question). -/
def expandPrompt (q : String) : String :=
  "You are a highly intelligent search query generator mainly focused on research " ++
  "for a given topic. Extract the most important keywords and generate a list of " ++
  "diverse and effective search queries (combinations of 1 to 5 words). " ++
  "Return 3 to 5 queries as a comma-separated list. Do not include any other text " ++
  "or formatting.\n\nOriginal Query: \"" ++ q ++ "\"\nOutput:\n"

/-- Python `str.splitlines()` for strings without a trailing newline (the
source only applies it to `result.strip()`, which never ends in a newline):
`""` gives `[]`, otherwise split at every newline. -/
def pySplitlines (s : String) : List String :=
  if s = "" then [] else pySplit '\n' s

/-- The parsing expression of `SearchQueryGenerator.extract`, lines 211-212
(unreachable at run time, since line 211 raises before evaluating it on a
string): `result.strip().splitlines()[-1]` then split on commas, strip each
token and drop empty tokens.  `none` models the `IndexError` raised by
`[-1]` when `splitlines` returns the empty list. -/
def parseQueries (result : String) : Option (List String) :=
  match (pySplitlines (pyStrip result)).getLast? with
  | none => none
  | some line => some (((pySplit ',' line).map pyStrip).filter (fun w => w != ""))

/-- `SearchQueryGenerator.extract`, lines 185-214: line 209 calls the async
`self.llm.chat(prompt)` WITHOUT `await`, so the chat body never runs — no
rate-limit acquire, no outbound request, no history change — and `result` is
a coroutine object, not a string; line 211 `result.strip()` then raises
`AttributeError` on every call, before any parsing.  The embedding returns
the raised exception name, the unchanged conversation history, and the list
of outbound message lists actually sent to the model backend (none). -/
def extract (hist : List Msg) (_q : String) :
    Except String (List String) × List Msg × List (List Msg) :=
  (.error "AttributeError", hist, [])

/-! ## RelevanceChecker (`is_relevant`), lines 216-228 of the source. -/

/-- The relevance prompt: the question plus the first 2000 characters of the
article content. -/
def relevancePrompt (q content : String) : String :=
  "Is the following article relevant to the query: \"" ++ q ++ "\"?\n" ++
  "Respond only with \x27Yes\x27 or \x27No\x27 with no explanation.\n\n" ++
  "--- Article Content ---\n" ++ pySlice 2000 content

/-- The decision rule `"yes" in answer.lower()`. -/
def relevanceDecision (answer : String) : Bool :=
  pyContains "yes" (pyLower answer)

/-- `RelevanceChecker.is_relevant`, lines 220-228: the method is synchronous
and line 227 calls the async `self.llm.chat(prompt)` WITHOUT `await`, so the
chat body never runs — the prompt is built (an effect-free f-string) but
nothing is sent and the history is untouched — and `answer` is a coroutine
object; line 228 `answer.lower()` then raises `AttributeError` on every
call, so no boolean is ever returned.  The embedding returns the raised
exception name, the unchanged conversation history, and the list of outbound
message lists actually sent to the model backend (none). -/
def is_relevant (hist : List Msg) (_q _content : String) :
    Except String Bool × List Msg × List (List Msg) :=
  (.error "AttributeError", hist, [])

/-! ## Search (`Search.search`), lines 150-177 of the source.

The DuckDuckGo backend becomes a function from a query and a result-count
limit to `none` (the per-query exception that is caught and logged) or a list
of result items, each exposing an optional `href` field. -/

/-- `self.MAX_TOTAL_UNIQUE_RESULTS` set in `Search.__init__`. -/
def MAX_TOTAL_UNIQUE_RESULTS : Nat := 50

/-- The inner loop over one query's result items: insert every item whose
`href` is present (`item.get("href")` not `None`), truthy (non-empty) and not
already collected, breaking out once `cap` unique results are held. -/
def aggInsert (cap : Nat) (acc : List String) : List (Option String) → List String
  | [] => acc
  | none :: rest => aggInsert cap acc rest
  | some href :: rest =>
      if href ≠ "" ∧ href ∉ acc then
        let acc2 := acc ++ [href]
        if cap ≤ acc2.length then acc2 else aggInsert cap acc2 rest
      else aggInsert cap acc rest

/-- The outer loop over queries: stop once `cap` unique results are held,
otherwise issue the query (a backend failure is caught and skipped) and
insert its items. -/
def aggLoop (backend : String → Nat → Option (List (Option String))) (maxResults cap : Nat)
    (acc : List String) : List String → List String
  | [] => acc
  | q :: qs =>
      if cap ≤ acc.length then acc
      else
        let acc2 :=
          match backend q maxResults with
          | none => acc
          | some items => aggInsert cap acc items
        aggLoop backend maxResults cap acc2 qs

/-- `Search.search`: run the aggregation loop with the total cap and return
at most the first `MAX_TOTAL_UNIQUE_RESULTS` collected hrefs (the final
`[:self.MAX_TOTAL_UNIQUE_RESULTS]` slice).  The output lists each unique
href once, standing for the dict values `{"href": href}` keyed by href. -/
def searchRun (backend : String → Nat → Option (List (Option String))) (maxResults : Nat)
    (queries : List String) : List String :=
  (aggLoop backend maxResults MAX_TOTAL_UNIQUE_RESULTS [] queries).take
    MAX_TOTAL_UNIQUE_RESULTS

/-! ## ResearchAgent.run, lines 236-261 of the source. -/

/-- One output record `{"title": summary, "url": result}`; the stored result
dict `{"href": href}` is represented by its href. -/
structure ResearchRecord where
  title : String
  url : String
deriving DecidableEq, Repr

/-- The per-result fetch-and-filter loop of `ResearchAgent.run`, lines
250-259.  The browser behaviour for each aggregated result is given as a
`PageOutcome` paired with its url.  Scraper state and LLM history are
threaded exactly as the shared `self.scraper` / `self.llm` instances are; an
exception from `is_relevant` propagates and aborts the run.  (The record
append mirrors lines 254-259; since `is_relevant` always raises, that branch
is unreachable at run time.) -/
def agentLoop (q : String) (hist : List Msg) (scr : ScraperState) :
    List (String × PageOutcome) →
      Except String (List ResearchRecord × List Msg × ScraperState)
  | [] => .ok ([], hist, scr)
  | (u, out) :: rest =>
      let sd := scrape_website scr u out
      if sd.2.content = "" then agentLoop q hist sd.1 rest
      else
        match (is_relevant hist q sd.2.content).1 with
        | .error e => .error e
        | .ok b =>
            match agentLoop q (is_relevant hist q sd.2.content).2.1 sd.1 rest with
            | .error e => .error e
            | .ok (recs, h3, s3) =>
                .ok ((if b then [⟨sd.2.title, u⟩] else []) ++ recs, h3, s3)

/-! ## AsyncRateLimiter (`acquire`), lines 15-34 of the source.

Timestamps from `time.monotonic()` are modelled as integers.  One completed
`acquire` call reads the clock up to three times: `t0` at the first purge,
`t1` after the (possible) sleep, and `t2` when the new call is appended; the
lock serializes the whole body. -/

/-- The purge `[t for t in self.calls if now - t < self.period]`. -/
def purge (period now : Int) (calls : List Int) : List Int :=
  calls.filter (fun t => decide (now - t < period))

/-- The clock values read during one completed `acquire` call. -/
structure AcquireTimes where
  t0 : Int
  t1 : Int
  t2 : Int
deriving DecidableEq, Repr

/-- The effect of one completed `acquire` call on `self.calls`: purge at
`t0`; when the retained count reaches `max_calls`, sleep and purge again at
`t1`; then append the fresh clock value `t2`. -/
def acquireStep (maxCalls : Nat) (period : Int) (calls : List Int) (tm : AcquireTimes) :
    List Int :=
  let c1 := purge period tm.t0 calls
  if maxCalls ≤ c1.length then purge period tm.t1 c1 ++ [tm.t2] else c1 ++ [tm.t2]

/-- The wake-up constraint when the sleep branch is taken:
`sleep_time = self.period - (now - self.calls[0]) + 1` and the clock read
after `asyncio.sleep(sleep_time)` is at least `now + sleep_time`.  A call on
an empty retained list would raise `IndexError` at `self.calls[0]`, so no
completed call has an empty retained list here. -/
def sleepOK (period t0 t1 : Int) (c1 : List Int) : Prop :=
  c1 ≠ [] ∧ t0 + (period - (t0 - c1.headI) + 1) ≤ t1

instance (period t0 t1 : Int) (c1 : List Int) : Decidable (sleepOK period t0 t1 c1) := by
  unfold sleepOK
  infer_instance

/-- A sequence of completed `acquire` calls: the clock is monotone across the
reads of each call and from each call to the next, and whenever the sleep
branch is taken the wake-up constraint holds. -/
def ValidTrace (maxCalls : Nat) (period : Int) :
    List Int → Int → List AcquireTimes → Prop
  | _, _, [] => True
  | calls, last, tm :: rest =>
      last ≤ tm.t0 ∧ tm.t0 ≤ tm.t1 ∧ tm.t1 ≤ tm.t2 ∧
      (maxCalls ≤ (purge period tm.t0 calls).length →
        sleepOK period tm.t0 tm.t1 (purge period tm.t0 calls)) ∧
      ValidTrace maxCalls period (acquireStep maxCalls period calls tm) tm.t2 rest

/-- The timestamps recorded (appended to `self.calls`) by a trace of
completed `acquire` calls. -/
def recordedOf (trace : List AcquireTimes) : List Int :=
  trace.map (fun tm => tm.t2)

/-- Whether a timestamp lies in the trailing window `(T - period, T]` — the
window the purge condition `now - t < period` inspects. -/
def inWindow (period T s : Int) : Bool :=
  decide (T - period < s) && decide (s ≤ T)

/-- How many of the given timestamps lie in the trailing window of length
`period` ending at `T`. -/
def windowCount (period : Int) (recs : List Int) (T : Int) : Nat :=
  recs.countP (inWindow period T)

/-- The inductive invariant tying the limiter's retained list to the full
record of appended timestamps: the retained list is a suffix of the record,
every purged timestamp had already left the window by the time `last` of the
latest completed call, the record is chronological and bounded by `last`,
and no trailing window holds more than `maxCalls` timestamps. -/
def LimiterInv (maxCalls : Nat) (period : Int) (calls recorded : List Int)
    (last : Int) : Prop :=
  (∃ dropped, recorded = dropped ++ calls ∧ ∀ s ∈ dropped, s + period ≤ last) ∧
  recorded.Pairwise (· ≤ ·) ∧
  (∀ s ∈ recorded, s ≤ last) ∧
  (∀ T, windowCount period recorded T ≤ maxCalls)

/-! ## Operation sequences on the LLMClient context (for the context
invariant). -/

/-- One `LLMClient` operation touching the conversation history: a successful
`chat(prompt, ...)` with `add_to_history=True` whose backend returned
`response`, a `set_system_message`, or a `clear_context`. -/
inductive ClientOp where
  | chatOp (prompt response : String)
  | setSys (c : String)
  | clear
deriving DecidableEq, Repr

/-- The effect of one operation on the history. -/
def applyOp (maxLen : Nat) (hist : List Msg) : ClientOp → List Msg
  | .chatOp p r =>
      add_to_context maxLen (add_to_context maxLen hist "user" p) "assistant" (pyStrip r)
  | .setSys c => set_system_message hist c
  | .clear => clear_context hist

/-- The history after a sequence of operations on a fresh client. -/
def runOps (maxLen : Nat) (ops : List ClientOp) : List Msg :=
  ops.foldl (applyOp maxLen) []

/-- Whether a system message has been set and not cleared by the sequence. -/
def sysActive (ops : List ClientOp) : Bool :=
  ops.foldl
    (fun b op =>
      match op with
      | .setSys _ => true
      | .clear => false
      | _ => b)
    false

/-- The context invariant exactly as the claim states it, at every point of
the operation sequence: the history length never exceeds `maxLen`, and while
a system message is set and not cleared it sits at index 0. -/
def ContextClaim (maxLen : Nat) (ops : List ClientOp) : Prop :=
  ∀ i, i ≤ ops.length →
    (runOps maxLen (ops.take i)).length ≤ maxLen ∧
    (sysActive (ops.take i) = true →
      ∃ m, (runOps maxLen (ops.take i)).head? = some m ∧ m.role = "system")

/-- An operation sequence on which the stated invariant fails: fill the
context with 15 chats, set the system message, then chat once more. -/
def cexOps : List ClientOp :=
  List.replicate 15 (ClientOp.chatOp "u" "a") ++ [ClientOp.setSys "s", ClientOp.chatOp "u" "a"]

/-! ## Spec-side definitions for the aggregator refinement. -/

/-- Modelled from the spec: insert a url only if unseen, preserving
first-seen order. -/
def insertNew (acc : List String) (x : String) : List String :=
  if x ∈ acc then acc else acc ++ [x]

/-- Modelled from the spec: fold a stream of urls into an accumulator,
keeping the first occurrence of each. -/
def dedupInto (acc : List String) (l : List String) : List String :=
  l.foldl insertNew acc

/-- Modelled from the spec: the unique urls of a stream in first-seen
order. -/
def firstSeenDedup (l : List String) : List String :=
  dedupInto [] l

/-- The hrefs of one query's result items that the inner loop can accept:
present and non-empty, in order. -/
def validHrefs (items : List (Option String)) : List String :=
  items.filterMap (fun o => o.bind (fun h => if h = "" then none else some h))

/-- All acceptable hrefs the backend offers for the query list, in traversal
order (a failing query offers none). -/
def flatValid (backend : String → Nat → Option (List (Option String))) (maxResults : Nat)
    (queries : List String) : List String :=
  queries.flatMap (fun q => validHrefs ((backend q maxResults).getD []))

/-- A backend for the spec's worked example: every query returns items with
hrefs `x` then `y`. -/
def exampleBackend : String → Nat → Option (List (Option String)) :=
  fun _ _ => some [some "x", some "y"]

/-! ## Auxiliary definitions for the orchestrator and relevance claims. -/

/-- The documents the shared scraper instance produces for a list of
(url, navigation outcome) pairs, threading its mutable fields. -/
def docsOf (scr : ScraperState) : List (String × PageOutcome) → List (String × FetchedDoc)
  | [] => []
  | (u, out) :: rest =>
      (u, (scrape_website scr u out).2) :: docsOf (scrape_website scr u out).1 rest


/-! ## Helper lemmas -/

theorem toList_mk (l : List Char) : (String.mk l).toList = l := rfl

theorem splitChars_ne_nil (sep : Char) (acc cs : List Char) :
    splitChars sep acc cs ≠ [] := by
  induction cs generalizing acc with
  | nil => simp [splitChars]
  | cons c cs ih =>
      unfold splitChars
      by_cases h : c = sep <;> simp [h, ih]

/-! ## C4: ContentFetcher error handling -/

/-- C4 (claim is right, code is wrong): evaluating `scrape_website` at the
failing input.  On one `WebScraper` instance, a successful fetch followed by
a failing fetch returns the previous body text together with the error
title — not an empty `bodyText` — because the except branch assigns
`self.webContent` instead of `self.content`. -/
theorem C4_fetchFailureKeepsStaleBody :
    (scrape_website (scrape_website freshScraper "u1" (.ok "T" (some "real body"))).1
        "u2" (.err "TimeoutError")).2 =
      ⟨"real body", "Scraping Error: TimeoutError"⟩ ∧
    (scrape_website freshScraper "u1" (.err "TimeoutError")).2 =
      ⟨"", "Scraping Error: TimeoutError"⟩ := by
  exact ⟨rfl, rfl⟩

/-! ## C7: RelevanceFilter decision rule -/

/-- C7 (claim states the intent, code has a slip): the real `is_relevant`
never returns a boolean — every call raises `AttributeError` with nothing
sent and the history untouched, because line 227 never awaits the chat
coroutine; meanwhile the decision expression of line 228, applied to a
response string, is true exactly when `"yes"` occurs in it case
insensitively, the three sample responses decide as the spec states, and the
prompt expression of lines 221-225 depends only on the first 2000 characters
of the article content. -/
theorem C7_relevanceDecisionVsCrash :
    (∀ (hist : List Msg) (q c : String),
      is_relevant hist q c = (.error "AttributeError", hist, [])) ∧
    (∀ ans : String, relevanceDecision ans = true ↔
        ∃ s t, s ++ "yes".toList ++ t = (pyLower ans).toList) ∧
    relevanceDecision "Yes, absolutely relevant." = true ∧
    relevanceDecision "No." = false ∧
    relevanceDecision "" = false ∧
    (∀ q c, relevancePrompt q c = relevancePrompt q (pySlice 2000 c)) := by
  refine ⟨fun hist q c => rfl, ?_, by decide, by decide, by decide, ?_⟩
  · intro ans
    unfold relevanceDecision pyContains
    exact decide_eq_true_iff
  · intro q c
    simp [relevancePrompt, pySlice, toList_mk, List.take_take]

/-! ## C10: chat leaves history unchanged on backend failure -/

/-- C10: when `chat` returns the propagated backend error, the conversation
history it returns is exactly the prior history: the user and assistant
turns are recorded only after a response is received. -/
theorem C10_chatAtomicOnFailure (maxLen : Nat) (backend : List Msg → Except String String)
    (hist : List Msg) (prompt : String) (uc ah : Bool) (e : String)
    (h : (chat maxLen backend hist prompt uc ah).1 = .error e) :
    (chat maxLen backend hist prompt uc ah).2.1 = hist := by
  unfold chat at h ⊢
  dsimp only at h ⊢
  cases hb : backend (chatMessages hist prompt uc) with
  | error e2 => rfl
  | ok raw => rw [hb] at h; simp at h

theorem C10_chatAtomicOnFailure_witness :
    (chat 30 (fun _ => Except.error "boom") [] "p" true true).2.1 = [] :=
  C10_chatAtomicOnFailure 30 (fun _ => Except.error "boom") [] "p" true true "boom" rfl

/-! ## C6: expander parsing never runs; the parsing expression on its own -/

/-- C6 counterexample: `extract` raises `AttributeError` — at
`result.strip()`, before any parsing — instead of returning an empty
sequence, for every question and so for whatever the model would have
answered; and even the parsing expression itself, applied directly to an
empty or all-whitespace response string, fails (`splitlines()[-1]` on `[]`
raises `IndexError`, modelled as `none`) rather than yielding zero
queries. -/
theorem C6_expandRaisesBeforeParsing :
    (extract [] "q").1 = .error "AttributeError" ∧
    parseQueries "" = none ∧ parseQueries " \n " = none :=
  ⟨rfl, rfl, rfl⟩

/-- C6 as amended: `expand` never parses any model response — it raises
`AttributeError` for every question and starting history, before parsing;
the parsing expression of lines 211-212, unreachable at run time, applied
directly to a response string succeeds exactly on strings with
non-whitespace content, and may yield zero queries, e.g. on a line of
commas. -/
theorem C6_parsePolicyDeadCode :
    (∀ (hist : List Msg) (q : String), (extract hist q).1 = .error "AttributeError") ∧
    (∀ s : String, pyStrip s ≠ "" → (parseQueries s).isSome = true) ∧
    parseQueries ",,," = some [] := by
  refine ⟨fun hist q => rfl, ?_, rfl⟩
  intro s hs
  unfold parseQueries pySplitlines
  rw [if_neg hs]
  have hne : pySplit '\n' (pyStrip s) ≠ [] := by
    unfold pySplit
    simp [splitChars_ne_nil]
  cases hgl : (pySplit '\n' (pyStrip s)).getLast? with
  | none =>
      have := List.getLast?_isSome.mpr hne
      rw [hgl] at this
      simp at this
  | some line => simp [hgl]

theorem C6_parsePolicyDeadCode_witness :
    pyStrip "abc" ≠ "" ∧ (parseQueries "abc").isSome = true :=
  ⟨by decide, C6_parsePolicyDeadCode.2.1 "abc" (by decide)⟩

/-! ## C5: the expander sends nothing at all -/

/-- C5 counterexample: at a concrete question on a fresh client, no outbound
message list is sent to the model at all — in particular not the prompt
alone — and the expansion raises `AttributeError` instead of completing. -/
theorem C5_expanderSendsNothing :
    (extract [] "q").2.2 ≠ [[(⟨"user", expandPrompt "q"⟩ : Msg)]] ∧
    (extract [] "q").1 = .error "AttributeError" :=
  ⟨by simp [extract], rfl⟩

/-- C5 as amended: the expansion is trivially stateless, because line 209
never awaits the chat coroutine: for every starting history and question,
`extract` sends no outbound message list, leaves the conversation history
unchanged, and raises `AttributeError` at `result.strip()`. -/
theorem C5_expanderNeverCallsModel (hist : List Msg) (q : String) :
    extract hist q = (.error "AttributeError", hist, []) := rfl

/-! ## C8: no boolean is ever produced to compare -/

/-- C8 counterexample: at the identical concrete (question, bodyText) pair,
neither the first nor the second `is_relevant` call yields any boolean — the
model backend is never consulted, so its determinism is moot, and both calls
raise `AttributeError`. -/
theorem C8_noBooleanYielded :
    (is_relevant [] "q" "c").1 = .error "AttributeError" ∧
    (is_relevant (is_relevant [] "q" "c").2.1 "q" "c").1 = .error "AttributeError" ∧
    ∀ b : Bool, (is_relevant [] "q" "c").1 ≠ .ok b := by
  refine ⟨rfl, rfl, ?_⟩
  intro b h
  exact Except.noConfusion h

/-- C8 as amended: two successive `is_relevant` calls on the identical
(question, bodyText) pair do behave identically — but not by producing a
boolean: each call raises `AttributeError` without consulting any backend or
changing the history, so the second outcome equals the first. -/
theorem C8_bothCallsRaiseIdentically (hist : List Msg) (q c : String) :
    is_relevant (is_relevant hist q c).2.1 q c = is_relevant hist q c ∧
    (is_relevant hist q c).1 = .error "AttributeError" :=
  ⟨rfl, rfl⟩

/-! ## C2: the context invariant -/

/-- No message after the head has the system role. -/
def tailNoSys (hist : List Msg) : Prop :=
  ∀ m ∈ hist.tail, m.role ≠ "system"

/-- The invariant the operations actually maintain. -/
def CtxInv (maxLen : Nat) (hist : List Msg) : Prop :=
  tailNoSys hist ∧ hist.length ≤ maxLen + 1 ∧
    (hist.length = maxLen + 1 → ∃ m, hist.head? = some m ∧ m.role = "system")

theorem tail_append_singleton (hist : List Msg) (msg : Msg) :
    ∀ m ∈ (hist ++ [msg]).tail, m ∈ hist.tail ∨ m = msg := by
  cases hist with
  | nil => simp
  | cons a t =>
      intro m hm
      simp only [List.cons_append, List.tail_cons, List.mem_append,
        List.mem_singleton] at hm
      simpa using hm

theorem add_to_context_inv (maxLen : Nat) (h0 : 0 < maxLen) (hist : List Msg)
    (role content : String) (hrole : role ≠ "system") (ht : tailNoSys hist) :
    tailNoSys (add_to_context maxLen hist role content) ∧
      (add_to_context maxLen hist role content).length ≤ maxLen := by
  unfold add_to_context lastSlice
  dsimp only
  set h := hist ++ [(⟨role, content⟩ : Msg)] with hh
  have htail : ∀ m ∈ h.tail, m.role ≠ "system" := by
    intro m hm
    cases tail_append_singleton hist ⟨role, content⟩ m hm with
    | inl h1 => exact ht m h1
    | inr h2 => rw [h2]; exact hrole
  by_cases hlen : maxLen < h.length
  · rw [if_pos hlen, if_neg (Nat.pos_iff_ne_zero.mp h0)]
    constructor
    · intro m hm
      have hk : h.length - maxLen = (h.length - maxLen - 1) + 1 := by omega
      have hdt : (h.drop (h.length - maxLen)).tail = h.drop (h.length - maxLen + 1) := by
        rw [List.tail_drop]
      have hcomm : h.drop (h.length - maxLen + 1) =
          (h.tail).drop (h.length - maxLen) := by
        rw [← List.drop_one, List.drop_drop, Nat.add_comm]
      rw [hdt, hcomm] at hm
      exact htail m (List.mem_of_mem_drop hm)
    · rw [List.length_drop]
      omega
  · rw [if_neg hlen]
    exact ⟨htail, by omega⟩

theorem set_system_message_inv (maxLen : Nat) (hist : List Msg)
    (hI : CtxInv maxLen hist) : CtxInv maxLen (set_system_message hist c) := by
  obtain ⟨ht, hlen, hfull⟩ := hI
  unfold set_system_message
  have hfiltered : ∀ m ∈ hist.filter (fun m => m.role != "system"), m.role ≠ "system" := by
    intro m hm
    have := List.of_mem_filter hm
    simpa [bne_iff_ne] using this
  refine ⟨?_, ?_, ?_⟩
  · intro m hm
    simp only [List.tail_cons] at hm
    exact hfiltered m hm
  · simp only [List.length_cons]
    by_cases hful : hist.length = maxLen + 1
    · obtain ⟨m, hm, hrole⟩ := hfull hful
      cases hist with
      | nil => simp at hm
      | cons a t =>
          simp only [List.head?_cons, Option.some_inj] at hm
          subst hm
          have hfa : (a.role != "system") = false := by
            simp [bne_iff_ne, hrole]
          have htf : t.filter (fun m => m.role != "system") = t := by
            rw [List.filter_eq_self]
            intro b hb
            simpa [bne_iff_ne] using ht b hb
          have hfc : (a :: t).filter (fun m => m.role != "system") = t := by
            simp [List.filter_cons, hfa, htf]
          rw [hfc]
          simp only [List.length_cons] at hful
          omega
    · have := List.length_filter_le (fun m => m.role != "system") hist
      omega
  · intro _
    exact ⟨⟨"system", c⟩, rfl, rfl⟩

theorem applyOp_inv (maxLen : Nat) (h0 : 0 < maxLen) (hist : List Msg) (op : ClientOp)
    (hI : CtxInv maxLen hist) : CtxInv maxLen (applyOp maxLen hist op) := by
  obtain ⟨ht, hlen, hfull⟩ := hI
  cases op with
  | chatOp p r =>
      have h1 := add_to_context_inv maxLen h0 hist "user" p (by decide) ht
      have h2 := add_to_context_inv maxLen h0 (add_to_context maxLen hist "user" p)
        "assistant" (pyStrip r) (by decide) h1.1
      show CtxInv maxLen (add_to_context maxLen (add_to_context maxLen hist "user" p)
        "assistant" (pyStrip r))
      exact ⟨h2.1, by have := h2.2; omega, fun hful => absurd h2.2 (by omega)⟩
  | setSys c => exact set_system_message_inv maxLen hist ⟨ht, hlen, hfull⟩
  | clear =>
      show CtxInv maxLen ([] : List Msg)
      exact ⟨by intro m hm; simp at hm, by simp, fun hctr => by simp at hctr⟩

theorem foldl_applyOp_inv (maxLen : Nat) (h0 : 0 < maxLen) (ops : List ClientOp) :
    ∀ hist : List Msg, CtxInv maxLen hist →
      CtxInv maxLen (ops.foldl (applyOp maxLen) hist) := by
  induction ops with
  | nil => intro hist hI; exact hI
  | cons op rest ih =>
      intro hist hI
      exact ih (applyOp maxLen hist op) (applyOp_inv maxLen h0 hist op hI)

set_option maxRecDepth 4000

/-- C2 counterexample: fill the context with 15 chats, set the system
message (length becomes 31 > 30, refuting the length bound), then chat once
more — the final history contains no system message at all although one was
set and never cleared, refuting "always at index 0" / "never evicted". -/
theorem C2_contextClaimFails :
    (¬ ContextClaim 30 cexOps) ∧ sysActive cexOps = true ∧
      (runOps 30 cexOps).all (fun m => m.role != "system") = true := by
  refine ⟨fun h => ?_, by decide, by decide⟩
  have h16 := (h 16 (by decide)).1
  exact absurd h16 (by decide)

/-- C2 as amended: after any operation sequence on a fresh client the
history length is at most `max_context_length + 1` (it exceeds
`max_context_length`, by exactly one, only when the latest point of excess
is a `set_system_message`, in which case the system message heads the list);
at most one system message is ever present and it can only sit at index 0 —
but eviction drops the oldest messages regardless of role, so a previously
set system message need not survive. -/
theorem C2_contextBoundedAmended (maxLen : Nat) (h0 : 0 < maxLen) (ops : List ClientOp) :
    (runOps maxLen ops).length ≤ maxLen + 1 ∧
    (∀ m ∈ (runOps maxLen ops).tail, m.role ≠ "system") ∧
    ((runOps maxLen ops).length = maxLen + 1 →
      ∃ m, (runOps maxLen ops).head? = some m ∧ m.role = "system") := by
  have hI := foldl_applyOp_inv maxLen h0 ops []
    ⟨by intro m hm; simp at hm, by simp, by simp⟩
  exact ⟨hI.2.1, hI.1, hI.2.2⟩

theorem C2_contextBoundedAmended_witness :
    0 < 30 ∧
      ((runOps 30 [ClientOp.setSys "s"]).length ≤ 31 ∧
      (∀ m ∈ (runOps 30 [ClientOp.setSys "s"]).tail, m.role ≠ "system") ∧
      ((runOps 30 [ClientOp.setSys "s"]).length = 31 →
        ∃ m, (runOps 30 [ClientOp.setSys "s"]).head? = some m ∧ m.role = "system")) :=
  ⟨by decide, C2_contextBoundedAmended 30 (by decide) [ClientOp.setSys "s"]⟩

/-! ## C3: the aggregator refines first-seen deduplication with a cap -/

theorem dedupInto_cons (acc : List String) (x : String) (l : List String) :
    dedupInto acc (x :: l) = dedupInto (insertNew acc x) l := rfl

theorem dedupInto_append (acc : List String) (l1 l2 : List String) :
    dedupInto acc (l1 ++ l2) = dedupInto (dedupInto acc l1) l2 :=
  List.foldl_append insertNew acc l1 l2

theorem dedupInto_eq_append :
    ∀ (l acc : List String), ∃ ext, dedupInto acc l = acc ++ ext
  | [], acc => ⟨[], by simp [dedupInto]⟩
  | x :: rest, acc => by
      obtain ⟨ext, hext⟩ := dedupInto_eq_append rest (insertNew acc x)
      rw [dedupInto_cons]
      by_cases hx : x ∈ acc
      · refine ⟨ext, ?_⟩
        rw [hext]
        simp [insertNew, hx]
      · refine ⟨x :: ext, ?_⟩
        rw [hext]
        simp [insertNew, hx]

theorem length_le_dedupInto (l acc : List String) :
    acc.length ≤ (dedupInto acc l).length := by
  obtain ⟨ext, h⟩ := dedupInto_eq_append l acc
  simp [h]

theorem take_dedupInto (l acc : List String) (cap : Nat) (h : cap ≤ acc.length) :
    (dedupInto acc l).take cap = acc.take cap := by
  obtain ⟨ext, he⟩ := dedupInto_eq_append l acc
  rw [he, List.take_append_of_le_length h]

theorem dedupInto_nodup : ∀ (l acc : List String), acc.Nodup → (dedupInto acc l).Nodup
  | [], _, h => h
  | x :: rest, acc, h => by
      rw [dedupInto_cons]
      apply dedupInto_nodup rest
      by_cases hx : x ∈ acc
      · simpa [insertNew, hx] using h
      · simp [insertNew, hx, List.nodup_append, h]

theorem validHrefs_some (href : String) (r : List (Option String)) (h : href ≠ "") :
    validHrefs (some href :: r) = href :: validHrefs r := by
  simp [validHrefs, List.filterMap_cons, h]

theorem aggInsert_spec (cap : Nat) :
    ∀ (items : List (Option String)) (acc : List String), acc.length < cap →
      aggInsert cap acc items = (dedupInto acc (validHrefs items)).take cap := by
  intro items
  induction items with
  | nil =>
      intro acc h
      show acc = (dedupInto acc (validHrefs [])).take cap
      show acc = acc.take cap
      exact (List.take_of_length_le (Nat.le_of_lt h)).symm
  | cons item rest ih =>
      intro acc h
      cases item with
      | none => exact ih acc h
      | some href =>
          by_cases h1 : href = ""
          · subst h1
            have hcond : ¬("" ≠ "" ∧ "" ∉ acc) := by simp
            show (if ("" ≠ "" ∧ "" ∉ acc) then _ else aggInsert cap acc rest) = _
            rw [if_neg hcond]
            exact ih acc h
          · by_cases h2 : href ∈ acc
            · have hcond : ¬(href ≠ "" ∧ href ∉ acc) := by simp [h2]
              show (if (href ≠ "" ∧ href ∉ acc) then _ else aggInsert cap acc rest) = _
              rw [if_neg hcond, validHrefs_some href rest h1, dedupInto_cons]
              have : insertNew acc href = acc := by simp [insertNew, h2]
              rw [this]
              exact ih acc h
            · have hcond : href ≠ "" ∧ href ∉ acc := ⟨h1, h2⟩
              have hins : insertNew acc href = acc ++ [href] := by simp [insertNew, h2]
              show (if (href ≠ "" ∧ href ∉ acc) then
                  (if cap ≤ (acc ++ [href]).length then acc ++ [href]
                    else aggInsert cap (acc ++ [href]) rest)
                else aggInsert cap acc rest) = _
              rw [if_pos hcond, validHrefs_some href rest h1, dedupInto_cons, hins]
              by_cases h3 : cap ≤ (acc ++ [href]).length
              · rw [if_pos h3, take_dedupInto (validHrefs rest) (acc ++ [href]) cap h3]
                have hle : (acc ++ [href]).length ≤ cap := by
                  simp only [List.length_append, List.length_singleton]
                  omega
                exact (List.take_of_length_le hle).symm
              · rw [if_neg h3]
                exact ih (acc ++ [href]) (by omega)

theorem aggLoop_stop (backend : String → Nat → Option (List (Option String)))
    (mr cap : Nat) (acc : List String) (qs : List String) (h : cap ≤ acc.length) :
    aggLoop backend mr cap acc qs = acc := by
  cases qs with
  | nil => rfl
  | cons q qs =>
      show (if cap ≤ acc.length then acc else _) = acc
      rw [if_pos h]

theorem aggLoop_spec (backend : String → Nat → Option (List (Option String))) (mr cap : Nat) :
    ∀ (qs : List String) (acc : List String), acc.length ≤ cap →
      aggLoop backend mr cap acc qs = (dedupInto acc (flatValid backend mr qs)).take cap := by
  intro qs
  induction qs with
  | nil =>
      intro acc h
      show acc = (dedupInto acc (flatValid backend mr [])).take cap
      show acc = acc.take cap
      exact (List.take_of_length_le h).symm
  | cons q qs ih =>
      intro acc h
      have hflat : flatValid backend mr (q :: qs) =
          validHrefs ((backend q mr).getD []) ++ flatValid backend mr qs := by
        simp [flatValid]
      rw [hflat, dedupInto_append]
      by_cases hstop : cap ≤ acc.length
      · rw [aggLoop_stop backend mr cap acc (q :: qs) hstop]
        have hle2 : cap ≤ (dedupInto acc (validHrefs ((backend q mr).getD []))).length :=
          le_trans hstop (length_le_dedupInto _ acc)
        rw [take_dedupInto _ _ cap hle2, take_dedupInto _ acc cap hstop]
        have : acc.length = cap := le_antisymm h hstop
        exact (List.take_of_length_le h).symm
      · have hlt : acc.length < cap := lt_of_le_of_ne h (fun he => hstop (le_of_eq he.symm))
        show (if cap ≤ acc.length then acc
            else aggLoop backend mr cap
              (match backend q mr with
                | none => acc
                | some items => aggInsert cap acc items) qs) = _
        rw [if_neg hstop]
        cases hb : backend q mr with
        | none =>
            show aggLoop backend mr cap acc qs = _
            rw [ih acc h]
            show _ = (dedupInto (dedupInto acc (validHrefs [])) (flatValid backend mr qs)).take cap
            rfl
        | some items =>
            show aggLoop backend mr cap (aggInsert cap acc items) qs = _
            have hgd : validHrefs ((some items : Option (List (Option String))).getD []) =
                validHrefs items := rfl
            rw [hgd, aggInsert_spec cap items acc hlt]
            have hD := dedupInto_eq_append (validHrefs items) acc
            by_cases hDle : (dedupInto acc (validHrefs items)).length ≤ cap
            · rw [List.take_of_length_le hDle]
              exact ih (dedupInto acc (validHrefs items)) hDle
            · have hlen : ((dedupInto acc (validHrefs items)).take cap).length = cap := by
                rw [List.length_take]
                omega
              rw [aggLoop_stop backend mr cap _ qs (le_of_eq hlen.symm)]
              rw [take_dedupInto (flatValid backend mr qs) _ cap (by omega)]

/-- C3: for every backend behaviour and query list, the aggregator output
has no duplicate urls, has length at most 50, and equals the first-seen-order
deduplication of all acceptable hrefs truncated at the cap of 50; and the
spec's worked example — queries `["a","a","b"]`, each returning hrefs `x`
then `y` — yields exactly `["x","y"]`. -/
theorem C3_aggregatorFirstSeenCap :
    (∀ (backend : String → Nat → Option (List (Option String))) (mr : Nat)
        (qs : List String),
      (searchRun backend mr qs).Nodup ∧
      (searchRun backend mr qs).length ≤ 50 ∧
      searchRun backend mr qs = (firstSeenDedup (flatValid backend mr qs)).take 50) ∧
    searchRun exampleBackend 10 ["a", "a", "b"] = ["x", "y"] := by
  constructor
  · intro backend mr qs
    have hrun : searchRun backend mr qs =
        (dedupInto [] (flatValid backend mr qs)).take 50 := by
      show (aggLoop backend mr 50 [] qs).take 50 = _
      rw [aggLoop_spec backend mr 50 qs [] (by simp), List.take_take, min_self]
    refine ⟨?_, ?_, ?_⟩
    · rw [hrun]
      exact (List.take_sublist _ _).nodup (dedupInto_nodup _ [] List.nodup_nil)
    · rw [hrun]
      exact List.length_take_le _ _
    · rw [hrun]
      rfl
  · rfl

/-! ## C9: the loop aborts at its first relevance call -/

theorem agentLoop_cons (q : String) (hist : List Msg) (scr : ScraperState) (u : String)
    (out : PageOutcome) (rest : List (String × PageOutcome)) :
    agentLoop q hist scr ((u, out) :: rest) =
      if (scrape_website scr u out).2.content = "" then
        agentLoop q hist (scrape_website scr u out).1 rest
      else .error "AttributeError" := by
  show (if (scrape_website scr u out).2.content = "" then _ else _) = _
  by_cases hc : (scrape_website scr u out).2.content = ""
  · rw [if_pos hc]
  · rw [if_neg hc]

/-- C9 (claim states the intent, code has a slip): the loop fetches result
by result and skips every empty-body document with no relevance activity and
nothing appended, exactly as the claim says — but its first relevance call
raises `AttributeError` (the chat coroutine inside `is_relevant` is never
awaited), so at the first non-empty-body document the run aborts: no
relevance decision is ever made and no record is ever appended.  Every run
either aborts that way (some fetched body non-empty) or completes with an
empty output and an unchanged history (all fetched bodies empty); both
cases are also evaluated on concrete inputs. -/
theorem C9_loopAbortsOnRelevanceCall :
    (∀ (q : String) (hist : List Msg) (scr : ScraperState)
        (items : List (String × PageOutcome)),
      ∃ s, agentLoop q hist scr items =
        if ((docsOf scr items).all (fun p => p.2.content == "")) = true
          then .ok ([], hist, s) else .error "AttributeError") ∧
    agentLoop "q" [] freshScraper [("u", .ok "T" (some "page body"))] =
      .error "AttributeError" ∧
    agentLoop "q" [] freshScraper [("u1", .ok "T" none), ("u2", .err "Timeout")] =
      .ok ([], [], ⟨"u2", "Scraping Error: Timeout", ""⟩) := by
  refine ⟨?_, rfl, rfl⟩
  intro q hist scr items
  induction items generalizing scr with
  | nil => exact ⟨scr, rfl⟩
  | cons p rest ih =>
      obtain ⟨u, out⟩ := p
      by_cases hc : (scrape_website scr u out).2.content = ""
      · obtain ⟨s, hs⟩ := ih (scrape_website scr u out).1
        refine ⟨s, ?_⟩
        rw [agentLoop_cons, if_pos hc]
        have hall : (docsOf scr ((u, out) :: rest)).all (fun p => p.2.content == "") =
            (docsOf (scrape_website scr u out).1 rest).all (fun p => p.2.content == "") := by
          show (List.all ((u, (scrape_website scr u out).2) ::
              docsOf (scrape_website scr u out).1 rest) _) = _
          rw [List.all_cons]
          simp [hc]
        rw [hall]
        exact hs
      · refine ⟨scr, ?_⟩
        rw [agentLoop_cons, if_neg hc]
        have hall : (docsOf scr ((u, out) :: rest)).all (fun p => p.2.content == "") =
            false := by
          show (List.all ((u, (scrape_website scr u out).2) ::
              docsOf (scrape_website scr u out).1 rest) _) = false
          rw [List.all_cons]
          simp [hc]
        rw [hall]
        rfl

/-! ## C1: the rate limiter's sliding-window bound -/

theorem inWindow_iff (period T s : Int) :
    inWindow period T s = true ↔ T - period < s ∧ s ≤ T := by
  simp [inWindow]

theorem mem_purge (period now : Int) (calls : List Int) (x : Int) :
    x ∈ purge period now calls ↔ x ∈ calls ∧ now - x < period := by
  simp [purge]

theorem purge_length_countP (period now : Int) (calls : List Int) :
    (purge period now calls).length =
      calls.countP (fun t => decide (now - t < period)) :=
  (List.countP_eq_length_filter _ _).symm

theorem sorted_filter_suffix (period now : Int) :
    ∀ calls : List Int, calls.Pairwise (· ≤ ·) →
      ∃ pre, calls = pre ++ purge period now calls ∧ ∀ s ∈ pre, s + period ≤ now := by
  intro calls
  induction calls with
  | nil => exact fun _ => ⟨[], rfl, by simp⟩
  | cons a t ih =>
      intro hs
      by_cases ha : now - a < period
      · have hall : purge period now (a :: t) = a :: t := by
          unfold purge
          rw [List.filter_eq_self]
          intro x hx
          rw [decide_eq_true_iff]
          rcases List.mem_cons.mp hx with hxa | hxt
          · rw [hxa] at *; exact ha
          · have hax : a ≤ x := (List.pairwise_cons.mp hs).1 x hxt
            omega
        exact ⟨[], by rw [hall, List.nil_append], by simp⟩
      · have hpa : purge period now (a :: t) = purge period now t := by
          unfold purge
          rw [List.filter_cons]
          simp [ha]
        obtain ⟨pre, hpre, hold⟩ := ih (List.Pairwise.of_cons hs)
        refine ⟨a :: pre, ?_, ?_⟩
        · rw [hpa, List.cons_append, ← hpre]
        · intro s hsm
          rcases List.mem_cons.mp hsm with hsa | hsp
          · rw [hsa]; omega
          · exact hold s hsp

theorem limiter_window_key (mc : Nat) (period : Int) (calls recorded : List Int)
    (last : Int) (tm : AcquireTimes)
    (hI : LimiterInv mc period calls recorded last)
    (h01 : last ≤ tm.t0) (h12 : tm.t0 ≤ tm.t1) (h23 : tm.t1 ≤ tm.t2)
    (hsleep : mc ≤ (purge period tm.t0 calls).length →
      sleepOK period tm.t0 tm.t1 (purge period tm.t0 calls)) :
    windowCount period recorded tm.t2 + 1 ≤ mc := by
  obtain ⟨⟨dropped, hsplit, hold⟩, hsorted, hle, hwin⟩ := hI
  have hdz : dropped.countP (inWindow period tm.t2) = 0 := by
    rw [List.countP_eq_zero]
    intro s hs hw
    rw [inWindow_iff] at hw
    have := hold s hs
    omega
  have hlec : ∀ s ∈ calls, s ≤ last := by
    intro s hs
    exact hle s (by rw [hsplit]; exact List.mem_append_right dropped hs)
  have hcw : windowCount period recorded tm.t2 = calls.countP (inWindow period tm.t2) := by
    unfold windowCount
    rw [hsplit, List.countP_append, hdz, Nat.zero_add]
  by_cases hpos : mc ≤ (purge period tm.t0 calls).length
  · obtain ⟨hc1ne, ht1⟩ := hsleep hpos
    have hcallsub : calls.Sublist recorded :=
      hsplit ▸ List.sublist_append_right dropped calls
    have hc1len : (purge period tm.t0 calls).length ≤ mc := by
      rw [purge_length_countP]
      calc calls.countP (fun t => decide (tm.t0 - t < period))
          ≤ recorded.countP (fun t => decide (tm.t0 - t < period)) :=
            hcallsub.countP_le _
        _ ≤ recorded.countP (inWindow period tm.t0) := by
            apply List.countP_mono_left
            intro x hx hpx
            rw [decide_eq_true_iff] at hpx
            rw [inWindow_iff]
            have := hle x hx
            omega
        _ ≤ mc := hwin tm.t0
    rcases hc1eq : purge period tm.t0 calls with _ | ⟨hd, tl⟩
    · exact absurd hc1eq hc1ne
    · have hhd : (purge period tm.t0 calls).headI = hd := by rw [hc1eq]; rfl
      rw [hhd] at ht1
      have hhdfail : (decide (tm.t1 - hd < period)) = false := by
        rw [decide_eq_false_iff_not]
        omega
      have hkey : calls.countP (inWindow period tm.t2) ≤ tl.length := by
        calc calls.countP (inWindow period tm.t2)
            ≤ calls.countP (fun s => decide (tm.t1 - s < period) &&
                decide (tm.t0 - s < period)) := by
              apply List.countP_mono_left
              intro x hx hw
              rw [inWindow_iff] at hw
              simp only [Bool.and_eq_true, decide_eq_true_iff]
              omega
          _ = (purge period tm.t0 calls).countP (fun s => decide (tm.t1 - s < period)) := by
              unfold purge
              exact (List.countP_filter _ _ _).symm
          _ = (List.filter (fun s => decide (tm.t1 - s < period)) (hd :: tl)).length := by
              rw [hc1eq, List.countP_eq_length_filter]
          _ = (List.filter (fun s => decide (tm.t1 - s < period)) tl).length := by
              rw [List.filter_cons, hhdfail]
              simp
          _ ≤ tl.length := List.length_filter_le _ _
      have htl : tl.length + 1 = (purge period tm.t0 calls).length := by
        rw [hc1eq]
        simp
      rw [hcw]
      omega
  · push_neg at hpos
    have hkey : calls.countP (inWindow period tm.t2) ≤ (purge period tm.t0 calls).length := by
      rw [purge_length_countP]
      apply List.countP_mono_left
      intro x hx hw
      rw [inWindow_iff] at hw
      rw [decide_eq_true_iff]
      omega
    rw [hcw]
    omega

theorem limiter_step (mc : Nat) (period : Int) (calls recorded : List Int) (last : Int)
    (tm : AcquireTimes) (hI : LimiterInv mc period calls recorded last)
    (h01 : last ≤ tm.t0) (h12 : tm.t0 ≤ tm.t1) (h23 : tm.t1 ≤ tm.t2)
    (hsleep : mc ≤ (purge period tm.t0 calls).length →
      sleepOK period tm.t0 tm.t1 (purge period tm.t0 calls)) :
    LimiterInv mc period (acquireStep mc period calls tm) (recorded ++ [tm.t2]) tm.t2 := by
  have hkey := limiter_window_key mc period calls recorded last tm hI h01 h12 h23 hsleep
  obtain ⟨⟨dropped, hsplit, hold⟩, hsorted, hle, hwin⟩ := hI
  have hcallsorted : calls.Pairwise (· ≤ ·) := by
    have hra : (dropped ++ calls).Pairwise (· ≤ ·) := hsplit ▸ hsorted
    exact (List.pairwise_append.mp hra).2.1
  obtain ⟨pre1, hpre1, hold1⟩ := sorted_filter_suffix period tm.t0 calls hcallsorted
  have hc1sorted : (purge period tm.t0 calls).Pairwise (· ≤ ·) :=
    List.Pairwise.sublist (List.filter_sublist calls) hcallsorted
  refine ⟨?_, ?_, ?_, ?_⟩
  · by_cases hpos : mc ≤ (purge period tm.t0 calls).length
    · obtain ⟨pre2, hpre2, hold2⟩ :=
        sorted_filter_suffix period tm.t1 (purge period tm.t0 calls) hc1sorted
      refine ⟨dropped ++ pre1 ++ pre2, ?_, ?_⟩
      · have hstep : acquireStep mc period calls tm =
            purge period tm.t1 (purge period tm.t0 calls) ++ [tm.t2] := by
          unfold acquireStep
          rw [if_pos hpos]
        rw [hstep, hsplit]
        conv =>
          lhs
          rw [hpre1, hpre2]
        simp [List.append_assoc]
      · intro s hs
        simp only [List.mem_append] at hs
        rcases hs with (hsd | hs1) | hs2
        · have := hold s hsd; omega
        · have := hold1 s hs1; omega
        · have := hold2 s hs2; omega
    · refine ⟨dropped ++ pre1, ?_, ?_⟩
      · have hstep : acquireStep mc period calls tm =
            purge period tm.t0 calls ++ [tm.t2] := by
          unfold acquireStep
          rw [if_neg hpos]
        rw [hstep, hsplit]
        conv =>
          lhs
          rw [hpre1]
        simp [List.append_assoc]
      · intro s hs
        simp only [List.mem_append] at hs
        rcases hs with hsd | hs1
        · have := hold s hsd; omega
        · have := hold1 s hs1; omega
  · rw [List.pairwise_append]
    refine ⟨hsorted, List.pairwise_singleton _ _, ?_⟩
    intro a ha b hb
    rw [List.mem_singleton] at hb
    subst hb
    have := hle a ha
    omega
  · intro s hs
    rcases List.mem_append.mp hs with h1 | h2
    · have := hle s h1; omega
    · rw [List.mem_singleton] at h2; omega
  · intro T
    unfold windowCount
    rw [List.countP_append]
    by_cases hT : inWindow period T tm.t2 = true
    · have hone : List.countP (inWindow period T) [tm.t2] = 1 := by
        rw [List.countP_singleton, if_pos hT]
      rw [hone]
      have hmono : recorded.countP (inWindow period T) ≤
          recorded.countP (inWindow period tm.t2) := by
        apply List.countP_mono_left
        intro x hx hw
        rw [inWindow_iff] at hw ⊢
        rw [inWindow_iff] at hT
        have := hle x hx
        omega
      unfold windowCount at hkey
      omega
    · have hzero : List.countP (inWindow period T) [tm.t2] = 0 := by
        rw [List.countP_singleton, if_neg hT]
      rw [hzero]
      have := hwin T
      unfold windowCount at this
      omega

theorem limiter_run (mc : Nat) (period : Int) :
    ∀ (trace : List AcquireTimes) (calls recorded : List Int) (last : Int),
      LimiterInv mc period calls recorded last →
      ValidTrace mc period calls last trace →
      ∀ T, windowCount period (recorded ++ recordedOf trace) T ≤ mc := by
  intro trace
  induction trace with
  | nil =>
      intro calls recorded last hI _ T
      have := hI.2.2.2 T
      simpa [recordedOf] using this
  | cons tm rest ih =>
      intro calls recorded last hI hV T
      obtain ⟨h01, h12, h23, hsleep, hV2⟩ := hV
      have hI2 := limiter_step mc period calls recorded last tm hI h01 h12 h23 hsleep
      have hrec := ih (acquireStep mc period calls tm) (recorded ++ [tm.t2]) tm.t2 hI2 hV2 T
      have hassoc : recorded ++ recordedOf (tm :: rest) =
          (recorded ++ [tm.t2]) ++ recordedOf rest := by
        simp [recordedOf]
      rw [hassoc]
      exact hrec

/-- C1: for every trace of completed `acquire` calls on a fresh limiter
(clock reads monotone, and whenever the sleep branch fires the wake-up
respects the computed sleep time with its one-second margin), no trailing
window of length `period` ever contains more than `max_calls` of the
recorded timestamps. -/
theorem C1_rateLimiterWindowBound (maxCalls : Nat) (period start : Int)
    (trace : List AcquireTimes)
    (hV : ValidTrace maxCalls period [] start trace) (T : Int) :
    windowCount period (recordedOf trace) T ≤ maxCalls := by
  have hI : LimiterInv maxCalls period [] [] start :=
    ⟨⟨[], rfl, by simp⟩, List.Pairwise.nil, by simp, fun T2 => by simp [windowCount]⟩
  have := limiter_run maxCalls period trace [] [] start hI hV T
  simpa using this

theorem C1_rateLimiterWindowBound_witness :
    ValidTrace 1 10 [] 0 [⟨0, 0, 0⟩, ⟨5, 16, 16⟩] ∧
      windowCount 10 (recordedOf [⟨0, 0, 0⟩, ⟨5, 16, 16⟩]) 16 ≤ 1 := by
  have hV : ValidTrace 1 10 [] 0 [⟨0, 0, 0⟩, ⟨5, 16, 16⟩] :=
    ⟨by decide, by decide, by decide, by decide,
      by decide, by decide, by decide, by decide, trivial⟩
  exact ⟨hV, C1_rateLimiterWindowBound 1 10 0 [⟨0, 0, 0⟩, ⟨5, 16, 16⟩] hV 16⟩

end ResearchAgentModel
